import Mathlib

/-!
Verification development for the rngmap repository: a canonical range map
(`RangeMap` in `src/rangemap.rs`) storing a default value plus an ordered
list of boundary entries `(Point K, V)`.

The ordered boundary store (an external intrusive red-black tree in the
source) is modelled as its in-order association list, ordered by the
boundary-point total order that the repository defines (compare inner keys
first; on equal keys `Included(k) < Excluded(k)`).  The tree primitives
(`lower_bound_mut`, `front_mut`, `upper_bound`, cursor `get`/`peek_prev`/
`insert_before`/`move_prev`/`remove`) are modelled by their contracts over
that list, exactly as the spec's section 4.2 assumes of the external tree.
-/

namespace RngMap

/-- Boundary point, from `bound.rs` / `rangemap.rs`: a key tagged as an
inclusive or exclusive one-sided endpoint (`Point<K>` / `RangePoint<K>`). -/
inductive Point (K : Type) where
  | Included : K → Point K
  | Excluded : K → Point K
deriving DecidableEq

/-- `std::ops::Bound<K>`: one side of a range expression. -/
inductive Bound (K : Type) where
  | Included : K → Bound K
  | Excluded : K → Bound K
  | Unbounded : Bound K
deriving DecidableEq

variable {K V : Type}

/-- `Point::inner` (`bound.rs` lines 42-46): the key inside a point. -/
def Point.inner : Point K → K
  | .Included k => k
  | .Excluded k => k

/-- Tag of a point: `false` for `Included`, `true` for `Excluded`.  Used to
state the equal-key tie-break of the ordering. -/
def Point.tag : Point K → Bool
  | .Included _ => false
  | .Excluded _ => true

/-- The manual `PartialOrd::partial_cmp` of `Point`/`RangePoint`
(`bound.rs` lines 13-28, `rangemap.rs` lines 61-76): compare inner keys
first; on equal keys `Included` is less than `Excluded`.  For a total key
order the Rust code always returns `Some`, so we return the `Ordering`
directly. -/
def Point.pcmp [LinearOrder K] (p q : Point K) : Ordering :=
  match compare p.inner q.inner with
  | .gt => .gt
  | .lt => .lt
  | .eq =>
    match p, q with
    | .Included _, .Included _ => .eq
    | .Excluded _, .Excluded _ => .eq
    | .Included _, .Excluded _ => .lt
    | .Excluded _, .Included _ => .gt

/-- The `#[derive(Ord)]` structural comparison of `Point`/`RangePoint`
(`bound.rs` line 7, `rangemap.rs` line 55): Rust's derived `Ord` on an enum
compares the variant (declaration order) first, so every `Included` sorts
before every `Excluded` regardless of the inner keys. -/
def Point.cmpDerived [LinearOrder K] : Point K → Point K → Ordering
  | .Included a, .Included b => compare a b
  | .Included _, .Excluded _ => .lt
  | .Excluded _, .Included _ => .gt
  | .Excluded a, .Excluded b => compare a b

/-- `p < q` in the boundary-point order (Boolean). -/
def Point.blt [LinearOrder K] (p q : Point K) : Bool :=
  Point.pcmp p q == Ordering.lt

/-- `p ≤ q` in the boundary-point order (Boolean). -/
def Point.ble [LinearOrder K] (p q : Point K) : Bool :=
  Point.pcmp p q != Ordering.gt

/-- `p > q` in the boundary-point order (Boolean); this is the comparison
`node.key > upper_limit` used by `remove_until`. -/
def Point.bgt [LinearOrder K] (p q : Point K) : Bool :=
  Point.pcmp p q == Ordering.gt

/-- `Point::swap_bound` (`bound.rs` lines 48-53): flip `Included` and
`Excluded` on the same key. -/
def Point.swap_bound : Point K → Point K
  | .Included k => .Excluded k
  | .Excluded k => .Included k

/-- `Point::from_bound_ref` (`bound.rs` lines 31-40): an optional boundary
point from a range endpoint, `none` for `Unbounded`. -/
def Point.from_bound : Bound K → Option (Point K)
  | .Included k => some (.Included k)
  | .Excluded k => some (.Excluded k)
  | .Unbounded => none

/-- `is_valid_range` (`bound.rs` lines 56-75), on the two endpoint bounds
of a range: false when both endpoints are bounded and inverted or empty
(inclusive-inclusive needs `start ≤ end`, any exclusive endpoint needs
`start < end`); true otherwise. -/
def is_valid_range [LinearOrder K] (s e : Bound K) : Bool :=
  match s, e with
  | .Included a, .Included b => if a > b then false else true
  | .Included a, .Excluded b => if a ≥ b then false else true
  | .Excluded a, .Included b => if a ≥ b then false else true
  | .Excluded a, .Excluded b => if a ≥ b then false else true
  | _, _ => true

/-- `RangeMap<K, V>` (`rangemap.rs` lines 113-116): the default value and
the ordered store of boundary entries, modelled as the tree's in-order
association list. -/
structure RangeMap (K V : Type) where
  val : V
  entries : List (Point K × V)
deriving DecidableEq

/-- `RangeMap::new` (`rangemap.rs` lines 128-133): empty store. -/
def RangeMap.new (v : V) : RangeMap K V :=
  ⟨v, []⟩

/-- `RemoveUntil::remove_until` (`node.rs` lines 47-68, duplicated at
`rangemap.rs` lines 150-171) on the suffix of entries at the cursor:
repeatedly remove the entry at the cursor while one exists and, when an
upper limit is given, its key is not greater than the limit (the code
breaks when `node.key > upper_limit`, using the manual order).  Returns
the value of the last entry removed (`none` when nothing was removed)
together with the remaining suffix. -/
def breakB [LinearOrder K] (limit : Option (Point K)) (p : Point K) : Bool :=
  match limit with
  | some u => Point.bgt p u
  | none => false

def remove_until [LinearOrder K] (limit : Option (Point K)) :
    List (Point K × V) → Option V × List (Point K × V)
  | [] => (none, [])
  | e :: rest =>
    if breakB limit e.1 then
      (none, e :: rest)
    else
      let r := remove_until limit rest
      (some (r.1.getD e.2), r.2)

/-- The continuation condition of the `remove_until` loop: the entry is
kept for removal when no limit is given, or when its key does not exceed
the limit (the loop breaks on `node.key > upper_limit`). -/
def keepB [LinearOrder K] (limit : Option (Point K)) (e : Point K × V) : Bool :=
  !(breakB limit e.1)

/-- `lower_bound_mut(Included(start))` (`rangemap.rs` line 186) as a split
of the in-order list: entries strictly below `s` stay before the cursor,
the cursor rests on the first entry `≥ s`. -/
def lower_bound_split [LinearOrder K] (s : Point K) (l : List (Point K × V)) :
    List (Point K × V) × List (Point K × V) :=
  (l.takeWhile (fun e => Point.blt e.1 s), l.dropWhile (fun e => Point.blt e.1 s))

/-- `upper_bound(Included(b)).get()` (`rangemap.rs` line 230) over the
in-order list: the last entry whose key is `≤ b`. -/
def upper_bound [LinearOrder K] (b : Point K) (l : List (Point K × V)) :
    Option (Point K × V) :=
  (l.takeWhile (fun e => Point.ble e.1 b)).getLast?

/-- `RangeMap::insert` (`rangemap.rs` lines 178-219), translated line by
line.  `startB`/`endB` are the two endpoint bounds of the range argument
(`stop` stands for the source's `end`, a Lean keyword).  The cursor is the
boundary between `left` and the working suffix; `insert_before` followed by
`move_prev` prepends to the suffix, a bare `insert_before` appends to
`left`; `peek_prev` reads the last entry of `left`.  Note the source
performs no range-validity check, passes `end` itself (not
`end.swap_bound()`) as the removal limit, and falls back to `self.val`
(not `peek_prev`) when nothing was removed. -/
def RangeMap.insert [LinearOrder K] [DecidableEq V] (m : RangeMap K V)
    (startB endB : Bound K) (value : V) : RangeMap K V :=
  let start := Point.from_bound startB
  let stop := Point.from_bound endB
  let lr :=
    match start with
    | some s => lower_bound_split s m.entries
    | none => ([], m.entries)
  let left := lr.1
  let removed := remove_until stop lr.2
  let endVal := removed.1.getD m.val
  let right :=
    match stop with
    | some e =>
      let addPoint : Bool :=
        match removed.2.head? with
        | some n =>
          if value = endVal then false else if endVal = n.2 then false else true
        | none => if value = endVal then false else true
      if addPoint then (e.swap_bound, endVal) :: removed.2 else removed.2
    | none => removed.2
  match start with
  | some s =>
    let prevVal := (left.getLast?.map Prod.snd).getD m.val
    if value = prevVal then ⟨m.val, left ++ right⟩
    else ⟨m.val, left ++ (s, value) :: right⟩
  | none => ⟨value, left ++ right⟩

/-- `RangeMap::index` (`rangemap.rs` lines 222-235): look up the last
stored entry whose point is `≤ Included(key)`; its value, or the default
value when there is none. -/
def RangeMap.index [LinearOrder K] (m : RangeMap K V) (k : K) : V :=
  match upper_bound (Point.Included k) m.entries with
  | some n => n.2
  | none => m.val

/-- Start bound of a section, from an entry's point (`iterators.rs`
lines 83-94, `Node::kv_ref`). -/
def startBound : Point K → Bound K
  | .Included k => .Included k
  | .Excluded k => .Excluded k

/-- End bound of a section, from the next entry's point with its inclusion
flipped (`iterators.rs` lines 62-66). -/
def flipBound : Point K → Bound K
  | .Included k => .Excluded k
  | .Excluded k => .Included k

/-- The section iterator `Iter` (`iterators.rs` lines 50-81), collected
into the finite list of sections it yields before returning `None`.  The
accumulator `cur` is the iterator's `next` field: the pending section
start bound and value. -/
def sectionsAux (cur : Bound K × V) :
    List (Point K × V) → List ((Bound K × Bound K) × V)
  | [] => [((cur.1, Bound.Unbounded), cur.2)]
  | e :: rest => ((cur.1, flipBound e.1), cur.2) :: sectionsAux (startBound e.1, e.2) rest

/-- `iter()` (`iterators.rs` lines 74-81) collected into a list: the seed
is `(Unbounded, default value)` followed by the stored entries. -/
def RangeMap.sections (m : RangeMap K V) : List ((Bound K × Bound K) × V) :=
  sectionsAux (Bound.Unbounded, m.val) m.entries

/-- A key satisfies a section's start bound. -/
def startSat [LinearOrder K] (b : Bound K) (k : K) : Bool :=
  match b with
  | .Included a => decide (a ≤ k)
  | .Excluded a => decide (a < k)
  | .Unbounded => true

/-- A key satisfies a section's end bound. -/
def endSat [LinearOrder K] (b : Bound K) (k : K) : Bool :=
  match b with
  | .Included a => decide (k ≤ a)
  | .Excluded a => decide (k < a)
  | .Unbounded => true

/-- A key lies in a section produced by the iterator. -/
def inSection [LinearOrder K] (sec : (Bound K × Bound K) × V) (k : K) : Bool :=
  startSat sec.1.1 k && endSat sec.1.2 k

/-- A key lies in the range given by two endpoint bounds. -/
def containsKey [LinearOrder K] (startB endB : Bound K) (k : K) : Bool :=
  startSat startB k && endSat endB k

/-- Reference last-write-wins semantics, from the spec's section 8: the
value at `k` is the value of the most recent insert whose range contains
`k`, or the default value when none does. -/
def lwwValue [LinearOrder K] (default : V)
    (inserts : List ((Bound K × Bound K) × V)) (k : K) : V :=
  ((inserts.filter (fun i => containsKey i.1.1 i.1.2 k)).getLast?.map
    (fun i => i.2)).getD default

/-- Invariant 1 of the spec's section 3: boundary points strictly
increasing along the store (Boolean, adjacent pairs). -/
def pairwiseSortedB [LinearOrder K] : List (Point K × V) → Bool
  | [] => true
  | [_] => true
  | a :: b :: rest => Point.blt a.1 b.1 && pairwiseSortedB (b :: rest)

/-- Invariant 2 of the spec's section 3: no two adjacent values equal,
starting with the pair (default value, first entry's value). -/
def adjacentDistinctB [DecidableEq V] (default : V) : List (Point K × V) → Bool
  | [] => true
  | e :: rest => (if default = e.2 then false else true) && adjacentDistinctB e.2 rest

/-- The canonical-form invariant of the spec's section 3 (what the
diagnostic `check_canonical` of the fuzz harness asserts). -/
def canonicalB [LinearOrder K] [DecidableEq V] (m : RangeMap K V) : Bool :=
  pairwiseSortedB m.entries && adjacentDistinctB m.val m.entries

/-- The strict order underlying `Point.pcmp`: smaller inner key, or equal
keys with `Included` before `Excluded`. -/
def Point.SLt [LinearOrder K] (p q : Point K) : Prop :=
  p.inner < q.inner ∨ (p.inner = q.inner ∧ p.tag = false ∧ q.tag = true)

/-- Trichotomy of `compare` on a linear order, packaged for case analysis. -/
theorem compare_cases [LinearOrder K] (a b : K) :
    (compare a b = Ordering.lt ∧ a < b) ∨ (compare a b = Ordering.eq ∧ a = b) ∨
      (compare a b = Ordering.gt ∧ b < a) := by
  rcases lt_trichotomy a b with h | h | h
  · exact Or.inl ⟨compare_lt_iff_lt.mpr h, h⟩
  · exact Or.inr (Or.inl ⟨compare_eq_iff_eq.mpr h, h⟩)
  · exact Or.inr (Or.inr ⟨compare_gt_iff_gt.mpr h, h⟩)

/-- `pcmp` answers `lt` exactly on the strict boundary-point order. -/
theorem Point.pcmp_eq_lt_iff [LinearOrder K] (p q : Point K) :
    Point.pcmp p q = Ordering.lt ↔ Point.SLt p q := by
  rcases p with a | a <;> rcases q with b | b <;>
  · rcases compare_cases a b with ⟨h, ho⟩ | ⟨h, ho⟩ | ⟨h, ho⟩
    · simp [Point.pcmp, Point.inner, Point.tag, Point.SLt, h, ho, lt_asymm ho, ho.ne, ho.ne']
    · subst ho
      simp [Point.pcmp, Point.inner, Point.tag, Point.SLt, h]
    · simp [Point.pcmp, Point.inner, Point.tag, Point.SLt, h, ho, lt_asymm ho, ho.ne, ho.ne']

/-- `pcmp` answers `eq` exactly on equal points. -/
theorem Point.pcmp_eq_eq_iff [LinearOrder K] (p q : Point K) :
    Point.pcmp p q = Ordering.eq ↔ p = q := by
  rcases p with a | a <;> rcases q with b | b <;>
  · rcases compare_cases a b with ⟨h, ho⟩ | ⟨h, ho⟩ | ⟨h, ho⟩
    · simp [Point.pcmp, Point.inner, h, ho.ne, ho.ne']
    · subst ho
      simp [Point.pcmp, Point.inner, h]
    · simp [Point.pcmp, Point.inner, h, ho.ne, ho.ne']

/-- `pcmp` answers `gt` exactly on the reversed strict order. -/
theorem Point.pcmp_eq_gt_iff [LinearOrder K] (p q : Point K) :
    Point.pcmp p q = Ordering.gt ↔ Point.SLt q p := by
  rcases p with a | a <;> rcases q with b | b <;>
  · rcases compare_cases a b with ⟨h, ho⟩ | ⟨h, ho⟩ | ⟨h, ho⟩
    · simp [Point.pcmp, Point.inner, Point.tag, Point.SLt, h, ho, lt_asymm ho, ho.ne, ho.ne']
    · subst ho
      simp [Point.pcmp, Point.inner, Point.tag, Point.SLt, h]
    · simp [Point.pcmp, Point.inner, Point.tag, Point.SLt, h, ho, lt_asymm ho, ho.ne, ho.ne']

theorem Point.blt_iff [LinearOrder K] (p q : Point K) :
    Point.blt p q = true ↔ Point.SLt p q := by
  rw [← Point.pcmp_eq_lt_iff]
  unfold Point.blt
  cases Point.pcmp p q <;> simp <;> decide

theorem Point.ble_iff [LinearOrder K] (p q : Point K) :
    Point.ble p q = true ↔ ¬ Point.SLt q p := by
  rw [← Point.pcmp_eq_gt_iff]
  unfold Point.ble
  cases Point.pcmp p q <;> simp <;> decide

theorem Point.ble_eq_false_iff [LinearOrder K] (p q : Point K) :
    Point.ble p q = false ↔ Point.SLt q p := by
  rw [← Bool.not_eq_true, Point.ble_iff, not_not]

theorem Point.bgt_iff [LinearOrder K] (p q : Point K) :
    Point.bgt p q = true ↔ Point.SLt q p := by
  rw [← Point.pcmp_eq_gt_iff]
  unfold Point.bgt
  cases Point.pcmp p q <;> simp <;> decide

theorem Point.SLt.trans [LinearOrder K] {p q r : Point K}
    (h1 : Point.SLt p q) (h2 : Point.SLt q r) : Point.SLt p r := by
  rcases h1 with h1 | ⟨e1, t1, t2⟩ <;> rcases h2 with h2 | ⟨e2, t3, t4⟩
  · exact Or.inl (lt_trans h1 h2)
  · exact Or.inl (e2 ▸ h1)
  · exact Or.inl (e1 ▸ h2)
  · exact absurd (t2.symm.trans t3) (by simp)

theorem Point.SLt.irrefl [LinearOrder K] (p : Point K) : ¬ Point.SLt p p := by
  rintro (h | ⟨_, t1, t2⟩)
  · exact lt_irrefl _ h
  · exact absurd (t1.symm.trans t2) (by simp)

theorem Point.SLt.asymm [LinearOrder K] {p q : Point K}
    (h1 : Point.SLt p q) (h2 : Point.SLt q p) : False :=
  Point.SLt.irrefl p (h1.trans h2)

theorem Point.SLt.total [LinearOrder K] {p q : Point K}
    (h1 : ¬ Point.SLt p q) (h2 : ¬ Point.SLt q p) : p = q := by
  rcases compare_cases p.inner q.inner with ⟨_, ho⟩ | ⟨_, ho⟩ | ⟨_, ho⟩
  · exact absurd (Or.inl ho) h1
  · rcases p with a | a <;> rcases q with b | b
    · exact congrArg Point.Included ho
    · exact absurd (Or.inr ⟨ho, rfl, rfl⟩) h1
    · exact absurd (Or.inr ⟨ho.symm, rfl, rfl⟩) h2
    · exact congrArg Point.Excluded ho
  · exact absurd (Or.inl ho) h2

theorem Point.ble_refl [LinearOrder K] (p : Point K) : Point.ble p p = true :=
  (Point.ble_iff p p).mpr (Point.SLt.irrefl p)

theorem Point.ble_of_slt [LinearOrder K] {p q : Point K} (h : Point.SLt p q) :
    Point.ble p q = true :=
  (Point.ble_iff p q).mpr (fun h2 => h.asymm h2)

/-- The tail of a sorted entry list is sorted. -/
theorem pairwiseSortedB_tail [LinearOrder K] {e : Point K × V} {l : List (Point K × V)}
    (h : pairwiseSortedB (e :: l) = true) : pairwiseSortedB l = true := by
  cases l with
  | nil => rfl
  | cons x xs =>
    simp only [pairwiseSortedB, Bool.and_eq_true] at h
    exact h.2

/-- In a sorted entry list, the head's point is strictly below every later
point. -/
theorem pairwiseSortedB_head [LinearOrder K] {e : Point K × V} {l : List (Point K × V)}
    (h : pairwiseSortedB (e :: l) = true) :
    ∀ x ∈ l, Point.SLt e.1 x.1 := by
  induction l generalizing e with
  | nil => intro x hx; cases hx
  | cons y ys ih =>
    intro x hx
    simp only [pairwiseSortedB, Bool.and_eq_true] at h
    have hblt : Point.SLt e.1 y.1 := (Point.blt_iff _ _).mp h.1
    rcases List.mem_cons.mp hx with rfl | hx
    · exact hblt
    · exact hblt.trans (ih h.2 x hx)

/-- `getLast?` of a cons, expressed with a default. -/
theorem getLast?_cons_eq {α : Type} (a : α) (l : List α) :
    (a :: l).getLast? = some (l.getLast?.getD a) := by
  induction l generalizing a with
  | nil => rfl
  | cons b bs ih =>
    rw [List.getLast?_cons_cons, ih b]
    rfl

/-- Second projection commutes with `Option.getD`. -/
theorem snd_getD {α β : Type} (o : Option (α × β)) (e : α × β) :
    (o.getD e).2 = (o.map Prod.snd).getD e.2 := by
  cases o <;> rfl

/-- `remove_until` removes exactly the maximal prefix of entries whose
keys pass the continuation condition, and returns the value of the last
entry of that prefix. -/
theorem remove_until_eq [LinearOrder K] (limit : Option (Point K)) (l : List (Point K × V)) :
    remove_until limit l =
      ((l.takeWhile (keepB limit)).getLast?.map Prod.snd, l.dropWhile (keepB limit)) := by
  induction l with
  | nil => simp [remove_until]
  | cons e rest ih =>
    cases hb : breakB limit e.1 with
    | true =>
      have hk2 : keepB limit e = false := by rw [keepB, hb]; rfl
      simp [remove_until, hb, hk2]
    | false =>
      have hk2 : keepB limit e = true := by rw [keepB, hb]; rfl
      simp only [remove_until, hb, Bool.false_eq_true, if_false, ih,
        List.takeWhile_cons, List.dropWhile_cons, hk2, if_true]
      rw [getLast?_cons_eq]
      cases h : (List.takeWhile (keepB limit) rest).getLast? <;> simp [h]

/-- With no limit, `remove_until` removes every entry and returns the last
value. -/
theorem remove_until_none [LinearOrder K] (l : List (Point K × V)) :
    remove_until (none : Option (Point K)) l = (l.getLast?.map Prod.snd, []) := by
  rw [remove_until_eq]
  have h1 : l.takeWhile (keepB (none : Option (Point K))) = l := by
    simp [keepB, breakB]
  have h2 : l.dropWhile (keepB (none : Option (Point K))) = [] := by
    simp [keepB, breakB]
  rw [h1, h2]

/-- `upper_bound b` on a sorted list either reports that no entry has key
`≤ b`, or returns an entry with key `≤ b` that is greatest among them. -/
theorem upper_bound_spec [LinearOrder K] (b : Point K) (l : List (Point K × V))
    (hs : pairwiseSortedB l = true) :
    ((∀ e ∈ l, Point.ble e.1 b = false) ∧ upper_bound b l = none) ∨
    (∃ e, upper_bound b l = some e ∧ e ∈ l ∧ Point.ble e.1 b = true ∧
      ∀ x ∈ l, Point.ble x.1 b = true → Point.ble x.1 e.1 = true) := by
  induction l with
  | nil =>
    left
    exact ⟨fun e he => absurd he (List.not_mem_nil e), rfl⟩
  | cons e rest ih =>
    cases he : Point.ble e.1 b with
    | false =>
      left
      constructor
      · intro x hx
        rcases List.mem_cons.mp hx with rfl | hx
        · exact he
        · have h1 : Point.SLt b e.1 := (Point.ble_eq_false_iff _ _).mp he
          have h2 : Point.SLt e.1 x.1 := pairwiseSortedB_head hs x hx
          exact (Point.ble_eq_false_iff _ _).mpr (h1.trans h2)
      · simp [upper_bound, List.takeWhile_cons, he]
    | true =>
      right
      have hub : upper_bound b (e :: rest) =
          some ((upper_bound b rest).getD e) := by
        simp only [upper_bound, List.takeWhile_cons, he, if_true]
        exact getLast?_cons_eq e _
      rcases ih (pairwiseSortedB_tail hs) with ⟨hall, hnone⟩ | ⟨e₂, heq, hmem, hble, hmax⟩
      · refine ⟨e, ?_, List.mem_cons_self e rest, he, ?_⟩
        · rw [hub, hnone]
          rfl
        · intro x hx hbx
          rcases List.mem_cons.mp hx with rfl | hx
          · exact Point.ble_refl x.1
          · exact absurd hbx (by simp [hall x hx])
      · refine ⟨e₂, ?_, List.mem_cons_of_mem e hmem, hble, ?_⟩
        · rw [hub, heq]
          rfl
        · intro x hx hbx
          rcases List.mem_cons.mp hx with rfl | hx
          · exact Point.ble_of_slt (pairwiseSortedB_head hs e₂ hmem)
          · exact hmax x hx hbx

/-- When the head entry's key is `≤ b`, `upper_bound` on the cons defaults
to the head. -/
theorem upper_bound_cons_pos [LinearOrder K] {e : Point K × V} {rest : List (Point K × V)}
    {b : Point K} (he : Point.ble e.1 b = true) :
    upper_bound b (e :: rest) = some ((upper_bound b rest).getD e) := by
  simp only [upper_bound, List.takeWhile_cons, he, if_true]
  exact getLast?_cons_eq e _

/-- A key satisfies the start bound made from a point exactly when the
point is `≤ Included(key)`. -/
theorem startSat_startBound [LinearOrder K] (p : Point K) (k : K) :
    startSat (startBound p) k = Point.ble p (Point.Included k) := by
  rw [Bool.eq_iff_iff]
  rcases p with a | a
  · simp [startSat, startBound, Point.ble_iff, Point.SLt, Point.inner, Point.tag]
  · simp [startSat, startBound, Point.ble_iff, Point.SLt, Point.inner, Point.tag]
    exact ⟨fun h => ⟨le_of_lt h, fun e => lt_irrefl a (e ▸ h)⟩,
      fun h => lt_of_le_of_ne h.1 (fun e => h.2 e.symm)⟩

/-- A key satisfies the end bound flipped from a point exactly when
`Included(key)` is strictly below the point. -/
theorem endSat_flipBound [LinearOrder K] (q : Point K) (k : K) :
    endSat (flipBound q) k = Point.blt (Point.Included k) q := by
  rw [Bool.eq_iff_iff]
  rcases q with b | b
  · simp [endSat, flipBound, Point.blt_iff, Point.SLt, Point.inner, Point.tag]
  · simp [endSat, flipBound, Point.blt_iff, Point.SLt, Point.inner, Point.tag]
    exact le_iff_lt_or_eq

/-- The start bounds of the produced sections: the seed bound followed by
each entry's point. -/
theorem sectionsAux_map_start (c : Bound K × V) (l : List (Point K × V)) :
    (sectionsAux c l).map (fun s => s.1.1) = c.1 :: l.map (fun e => startBound e.1) := by
  induction l generalizing c with
  | nil => rfl
  | cons e rest ih => simp [sectionsAux, ih]

/-- The end bounds of the produced sections: each entry's point flipped,
then `Unbounded` for the final section. -/
theorem sectionsAux_map_stop (c : Bound K × V) (l : List (Point K × V)) :
    (sectionsAux c l).map (fun s => s.1.2) =
      l.map (fun e => flipBound e.1) ++ [Bound.Unbounded] := by
  induction l generalizing c with
  | nil => rfl
  | cons e rest ih => simp [sectionsAux, ih]

/-- The iterator yields one more section than there are entries. -/
theorem sectionsAux_length (c : Bound K × V) (l : List (Point K × V)) :
    (sectionsAux c l).length = l.length + 1 := by
  induction l generalizing c with
  | nil => rfl
  | cons e rest ih => simp [sectionsAux, ih]

/-- When the key fails the seed start bound and every entry's point is
`> Included(key)`, no produced section holds the key. -/
theorem sectionsAux_zero [LinearOrder K] {k : K} :
    ∀ (l : List (Point K × V)) (b : Bound K) (v : V),
      startSat b k = false →
      (∀ e ∈ l, Point.ble e.1 (Point.Included k) = false) →
      ∀ s ∈ sectionsAux (b, v) l, inSection s k = false := by
  intro l
  induction l with
  | nil =>
    intro b v hb _ s hs
    simp only [sectionsAux, List.mem_singleton] at hs
    subst hs
    simp [inSection, hb]
  | cons e rest ih =>
    intro b v hb hl s hs
    rcases List.mem_cons.mp hs with rfl | hs
    · simp [inSection, hb]
    · refine ih (startBound e.1) e.2 ?_ ?_ s hs
      · rw [startSat_startBound]
        exact hl e (List.mem_cons_self e rest)
      · intro x hx
        exact hl x (List.mem_cons_of_mem e hx)

/-- Core section-iterator invariant: from a seed whose start bound holds
the key, over a sorted entry list, exactly one produced section holds the
key, and every section holding it carries the value of the last entry with
point `≤ Included(key)` (the seed value when there is none). -/
theorem sectionsAux_spec [LinearOrder K] {k : K} :
    ∀ (l : List (Point K × V)) (b : Bound K) (v : V),
      pairwiseSortedB l = true →
      startSat b k = true →
      (sectionsAux (b, v) l).countP (fun s => inSection s k) = 1 ∧
      ∀ s ∈ sectionsAux (b, v) l, inSection s k = true →
        s.2 = ((upper_bound (Point.Included k) l).map Prod.snd).getD v := by
  intro l
  induction l with
  | nil =>
    intro b v _ hb
    constructor
    · simp [sectionsAux, inSection, hb, endSat]
    · intro s hs _
      simp only [sectionsAux, List.mem_singleton] at hs
      subst hs
      simp [upper_bound]
  | cons e rest ih =>
    intro b v hsort hb
    cases he : Point.ble e.1 (Point.Included k) with
    | false =>
      have hend : endSat (flipBound e.1) k = true := by
        rw [endSat_flipBound]
        exact (Point.blt_iff _ _).mpr ((Point.ble_eq_false_iff _ _).mp he)
      have hrest : ∀ x ∈ rest, Point.ble x.1 (Point.Included k) = false := by
        intro x hx
        have h1 := (Point.ble_eq_false_iff _ _).mp he
        have h2 := pairwiseSortedB_head hsort x hx
        exact (Point.ble_eq_false_iff _ _).mpr (h1.trans h2)
      have hzero := sectionsAux_zero rest (startBound e.1) e.2
        (by rw [startSat_startBound]; exact he) hrest
      constructor
      · have hx : inSection ((b, flipBound e.1), v) k = true := by
          simp [inSection, hb, hend]
        have hz : (sectionsAux (startBound e.1, e.2) rest).countP
            (fun s => inSection s k) = 0 :=
          List.countP_eq_zero.mpr (fun s hs => by simp [hzero s hs])
        simp [sectionsAux, List.countP_cons, hx, hz]
      · intro s hs hins
        rcases List.mem_cons.mp hs with rfl | hs
        · simp [upper_bound, List.takeWhile_cons, he]
        · exact absurd hins (by simp [hzero s hs])
    | true =>
      have hbs : startSat (startBound e.1) k = true := by
        rw [startSat_startBound]
        exact he
      have hend : endSat (flipBound e.1) k = false := by
        rw [endSat_flipBound]
        have h1 := (Point.ble_iff _ _).mp he
        cases h : Point.blt (Point.Included k) e.1 with
        | false => rfl
        | true => exact absurd ((Point.blt_iff _ _).mp h) h1
      obtain ⟨ihc, ihv⟩ := ih (startBound e.1) e.2 (pairwiseSortedB_tail hsort) hbs
      constructor
      · have hx : inSection ((b, flipBound e.1), v) k = false := by
          simp [inSection, hend]
        simp [sectionsAux, List.countP_cons, hx, ihc]
      · intro s hs hins
        rcases List.mem_cons.mp hs with rfl | hs
        · exact absurd hins (by simp [inSection, hend])
        · rw [ihv s hs hins, upper_bound_cons_pos he]
          cases upper_bound (Point.Included k) rest <;> simp

/-- With a limit, the continuation condition is exactly "key does not
exceed the limit". -/
theorem keepB_some [LinearOrder K] (u : Point K) (e : Point K × V) :
    keepB (some u) e = Point.ble e.1 u := by
  rw [keepB, breakB, Point.bgt, Point.ble]
  cases Point.pcmp e.1 u <;> decide

/-- C5: `remove_until(cursor, upper_limit)` repeatedly removes the entry at
the cursor as long as one exists and, if a limit is given, its key does not
exceed the limit, stopping otherwise (with no limit it removes every entry
from the cursor to the end); it returns `some` of the value of the last
entry removed, or `none` if nothing was removed.  Formally: the removed
entries are exactly the maximal prefix of the cursor suffix whose keys pass
the continuation condition (`keepB`, which for `some u` is "key ≤ u"), the
remaining suffix is untouched, the returned value is the last entry of that
prefix (`none` when it is empty), and with no limit the whole suffix is
removed. -/
theorem remove_until_spec [LinearOrder K] (limit : Option (Point K))
    (l : List (Point K × V)) :
    remove_until limit l =
      ((l.takeWhile (keepB limit)).getLast?.map Prod.snd, l.dropWhile (keepB limit)) ∧
    (∀ (u : Point K) (e : Point K × V), keepB (some u) e = Point.ble e.1 u) ∧
    remove_until (none : Option (Point K)) l = (l.getLast?.map Prod.snd, []) :=
  ⟨remove_until_eq limit l, fun u e => keepB_some u e, remove_until_none l⟩

/-- C7: `is_valid_range` returns true iff, comparing the endpoints as plain
keys, start < end strictly whenever at least one endpoint is exclusive, and
start ≤ end when both are inclusive; any range with an unbounded side is
valid, equal inclusive bounds are valid, and every other equal-bound
combination is invalid. -/
theorem is_valid_range_spec [LinearOrder K] :
    (∀ a b : K, (is_valid_range (Bound.Included a) (Bound.Included b) = true ↔ a ≤ b)) ∧
    (∀ a b : K, (is_valid_range (Bound.Included a) (Bound.Excluded b) = true ↔ a < b)) ∧
    (∀ a b : K, (is_valid_range (Bound.Excluded a) (Bound.Included b) = true ↔ a < b)) ∧
    (∀ a b : K, (is_valid_range (Bound.Excluded a) (Bound.Excluded b) = true ↔ a < b)) ∧
    (∀ s e : Bound K, s = Bound.Unbounded ∨ e = Bound.Unbounded →
      is_valid_range s e = true) ∧
    (∀ a : K, is_valid_range (Bound.Included a) (Bound.Included a) = true) ∧
    (∀ a : K, is_valid_range (Bound.Included a) (Bound.Excluded a) = false ∧
      is_valid_range (Bound.Excluded a) (Bound.Included a) = false ∧
      is_valid_range (Bound.Excluded a) (Bound.Excluded a) = false) := by
  refine ⟨?_, ?_, ?_, ?_, ?_, ?_, ?_⟩
  · intro a b
    by_cases h : a > b
    · simp [is_valid_range, h, not_le.mpr h]
    · simp [is_valid_range, h, not_lt.mp h]
  · intro a b
    by_cases h : a ≥ b
    · simp [is_valid_range, h, not_lt.mpr h]
    · simp [is_valid_range, h, lt_of_not_ge h]
  · intro a b
    by_cases h : a ≥ b
    · simp [is_valid_range, h, not_lt.mpr h]
    · simp [is_valid_range, h, lt_of_not_ge h]
  · intro a b
    by_cases h : a ≥ b
    · simp [is_valid_range, h, not_lt.mpr h]
    · simp [is_valid_range, h, lt_of_not_ge h]
  · intro s e h
    rcases h with rfl | rfl
    · cases e <;> rfl
    · cases s <;> rfl
  · intro a
    simp [is_valid_range]
  · intro a
    refine ⟨?_, ?_, ?_⟩ <;> simp [is_valid_range]

/-- Witness for C7 at concrete inputs: a left-unbounded range is valid. -/
theorem is_valid_range_spec_witness :
    is_valid_range (Bound.Unbounded : Bound Int) (Bound.Included 3) = true :=
  (@is_valid_range_spec Int _).2.2.2.2.1 Bound.Unbounded (Bound.Included 3) (Or.inl rfl)

/-- C8: for every key `k` and every map state (sorted store), `index`
constructs `Included(k)`, finds the stored entry with the greatest boundary
point `≤ Included(k)`, and returns that entry's value, or the map's default
value if no such entry exists; as a pure function of the map it is total
and leaves the map unchanged. -/
theorem index_spec [LinearOrder K] (m : RangeMap K V) (k : K)
    (hs : pairwiseSortedB m.entries = true) :
    (∃ e, e ∈ m.entries ∧ Point.ble e.1 (Point.Included k) = true ∧ m.index k = e.2 ∧
      ∀ x ∈ m.entries, Point.ble x.1 (Point.Included k) = true →
        Point.ble x.1 e.1 = true) ∨
    ((∀ e ∈ m.entries, Point.ble e.1 (Point.Included k) = false) ∧
      m.index k = m.val) := by
  rcases upper_bound_spec (Point.Included k) m.entries hs with
    ⟨hall, hnone⟩ | ⟨e, heq, hmem, hble, hmax⟩
  · right
    exact ⟨hall, by simp [RangeMap.index, hnone]⟩
  · left
    exact ⟨e, hmem, hble, by simp [RangeMap.index, heq], hmax⟩

/-- Witness for C8 on a concrete one-entry map and key. -/
theorem index_spec_witness :
    (∃ e, e ∈ (RangeMap.mk 'A' [(Point.Included (0 : Int), 'B')]).entries ∧
      Point.ble e.1 (Point.Included 5) = true ∧
      (RangeMap.mk 'A' [(Point.Included (0 : Int), 'B')]).index 5 = e.2 ∧
      ∀ x ∈ (RangeMap.mk 'A' [(Point.Included (0 : Int), 'B')]).entries,
        Point.ble x.1 (Point.Included 5) = true → Point.ble x.1 e.1 = true) ∨
    ((∀ e ∈ (RangeMap.mk 'A' [(Point.Included (0 : Int), 'B')]).entries,
      Point.ble e.1 (Point.Included 5) = false) ∧
      (RangeMap.mk 'A' [(Point.Included (0 : Int), 'B')]).index 5 =
        (RangeMap.mk 'A' [(Point.Included (0 : Int), 'B')]).val) :=
  index_spec (RangeMap.mk 'A' [(Point.Included (0 : Int), 'B')]) 5 (by decide)

/-- C9: for every map state with a sorted store, the sections produced by
the iterator partition the entire key space in increasing key order with no
gaps and no overlaps: the first section's start bound is `Unbounded`, the
last section's end bound is `Unbounded`, each section's end bound is the
next entry's point with its inclusion flipped (the start bounds are the
entries' points themselves), and every key lies in exactly one section,
whose value is what `index` returns for that key. -/
theorem sections_spec [LinearOrder K] (m : RangeMap K V)
    (hs : pairwiseSortedB m.entries = true) :
    (m.sections.map (fun s => s.1.1) =
      Bound.Unbounded :: m.entries.map (fun e => startBound e.1)) ∧
    (m.sections.map (fun s => s.1.2) =
      m.entries.map (fun e => flipBound e.1) ++ [Bound.Unbounded]) ∧
    (∀ k, m.sections.countP (fun s => inSection s k) = 1) ∧
    (∀ k, ∀ s ∈ m.sections, inSection s k = true → s.2 = m.index k) := by
  refine ⟨sectionsAux_map_start _ _, sectionsAux_map_stop _ _, ?_, ?_⟩
  · intro k
    exact (sectionsAux_spec m.entries Bound.Unbounded m.val hs rfl).1
  · intro k s hsec hins
    have h := (sectionsAux_spec m.entries Bound.Unbounded m.val hs rfl).2 s hsec hins
    rw [h]
    cases hu : upper_bound (Point.Included k) m.entries <;>
      simp [RangeMap.index, hu]

/-- Witness for C9 on a concrete two-entry sorted map. -/
theorem sections_spec_witness :
    ((RangeMap.mk 'A' [(Point.Included (0 : Int), 'B'),
        (Point.Excluded 5, 'C')]).sections.map (fun s => s.1.1) =
      Bound.Unbounded :: (RangeMap.mk 'A' [(Point.Included (0 : Int), 'B'),
        (Point.Excluded 5, 'C')]).entries.map (fun e => startBound e.1)) ∧
    ((RangeMap.mk 'A' [(Point.Included (0 : Int), 'B'),
        (Point.Excluded 5, 'C')]).sections.map (fun s => s.1.2) =
      (RangeMap.mk 'A' [(Point.Included (0 : Int), 'B'),
        (Point.Excluded 5, 'C')]).entries.map (fun e => flipBound e.1) ++
        [Bound.Unbounded]) ∧
    (∀ k, (RangeMap.mk 'A' [(Point.Included (0 : Int), 'B'),
        (Point.Excluded 5, 'C')]).sections.countP (fun s => inSection s k) = 1) ∧
    (∀ k, ∀ s ∈ (RangeMap.mk 'A' [(Point.Included (0 : Int), 'B'),
        (Point.Excluded 5, 'C')]).sections, inSection s k = true →
      s.2 = (RangeMap.mk 'A' [(Point.Included (0 : Int), 'B'),
        (Point.Excluded 5, 'C')]).index k) :=
  sections_spec (RangeMap.mk 'A' [(Point.Included (0 : Int), 'B'),
    (Point.Excluded 5, 'C')]) (by decide)

/-- C10: the iterator yields exactly one more section than the number of
stored boundary entries before it is exhausted (the collected output is a
finite list of that length), and on a newly constructed map with default
value `v` it yields exactly the single section `((Unbounded, Unbounded), v)`. -/
theorem sections_count (K V : Type) :
    (∀ m : RangeMap K V, m.sections.length = m.entries.length + 1) ∧
    (∀ v : V, (RangeMap.new v : RangeMap K V).sections =
      [((Bound.Unbounded, Bound.Unbounded), v)]) := by
  constructor
  · intro m
    exact sectionsAux_length _ _
  · intro v
    rfl

/-- C6 fails on the code: the derived `Ord` of `Point`/`RangePoint` (the
comparison the ordered tree uses through `KeyAdapter`) compares the variant
first, so it disagrees with the manual `PartialOrd` key-first order: on
`Included(5)` versus `Excluded(3)` the derived `Ord` answers `lt` while the
key-first order answers `gt`. -/
theorem ord_disagrees_with_key_order :
    Point.cmpDerived (Point.Included (5 : Int)) (Point.Excluded 3) = Ordering.lt ∧
    Point.pcmp (Point.Included (5 : Int)) (Point.Excluded 3) = Ordering.gt := by
  constructor <;> decide

/-- C1 fails on the code: after the two valid-range inserts
`insert((Excluded 10, Unbounded), 'B')` and then
`insert((Unbounded, Included 10), 'C')` from default `'A'`, the store holds
two entries both at boundary point `Excluded(10)`, so the boundary points
are not strictly increasing. -/
theorem insert_breaks_strict_increase :
    (((RangeMap.new 'A' : RangeMap Int Char).insert
        (Bound.Excluded 10) Bound.Unbounded 'B').insert
        Bound.Unbounded (Bound.Included 10) 'C')
      = RangeMap.mk 'C' [(Point.Excluded 10, 'A'), (Point.Excluded 10, 'B')] ∧
    pairwiseSortedB ((((RangeMap.new 'A' : RangeMap Int Char).insert
        (Bound.Excluded 10) Bound.Unbounded 'B').insert
        Bound.Unbounded (Bound.Included 10) 'C')).entries = false ∧
    canonicalB ((((RangeMap.new 'A' : RangeMap Int Char).insert
        (Bound.Excluded 10) Bound.Unbounded 'B').insert
        Bound.Unbounded (Bound.Included 10) 'C')) = false ∧
    is_valid_range (Bound.Excluded (10 : Int)) (Bound.Unbounded : Bound Int) = true ∧
    is_valid_range (Bound.Unbounded : Bound Int) (Bound.Included 10) = true := by
  refine ⟨by decide, by decide, by decide, by decide, by decide⟩

/-- C2 fails on the code: from default `'A'`, after `insert(0..10, 'B')`
and `insert(2..5, 'C')`, the key 7 lies in the first inserted range but not
the second, so the most recent insert containing it gives `'B'`; the code's
`index` returns `'C'`. -/
theorem index_breaks_last_write_wins :
    (((RangeMap.new 'A' : RangeMap Int Char).insert
        (Bound.Included 0) (Bound.Excluded 10) 'B').insert
        (Bound.Included 2) (Bound.Excluded 5) 'C').index 7 = 'C' ∧
    containsKey (Bound.Included (0 : Int)) (Bound.Excluded 10) 7 = true ∧
    containsKey (Bound.Included (2 : Int)) (Bound.Excluded 5) 7 = false ∧
    lwwValue 'A' [((Bound.Included (0 : Int), Bound.Excluded 10), 'B'),
        ((Bound.Included 2, Bound.Excluded 5), 'C')] 7 = 'B' := by
  refine ⟨by decide, by decide, by decide, by decide⟩

/-- C3 fails on the code: `insert` performs no range-validity check, and
inserting the invalid range `0..0` into a fresh map changes the map (two
entries at `Included(0)` appear) instead of leaving it unchanged. -/
theorem insert_invalid_range_mutates :
    is_valid_range (Bound.Included (0 : Int)) (Bound.Excluded 0) = false ∧
    ((RangeMap.new 'A' : RangeMap Int Char).insert
        (Bound.Included 0) (Bound.Excluded 0) 'B')
      = RangeMap.mk 'A' [(Point.Included 0, 'B'), (Point.Included 0, 'A')] ∧
    ((RangeMap.new 'A' : RangeMap Int Char).insert
        (Bound.Included 0) (Bound.Excluded 0) 'B') ≠ RangeMap.new 'A' := by
  refine ⟨by decide, by decide, by decide⟩

/-- C4 fails on the code: the removal limit handed to `remove_until` is
`end` itself, not `end.swap_bound()`, and the nothing-removed fallback for
`end_val` is the map default, not the value before the cursor.  First
conjuncts: on the reachable map {default `'A'`, entries
`[(Excluded 10, 'B')]`}, `insert(..10, 'C')` removes the entry at
`Excluded(10)` although `Excluded(10) ≤ end.swap_bound() = Included(10)`
fails, which moves the boundary onto `Included(10)` and changes the value
at key 10.  Last conjunct: on the reachable map {default `'A'`, entries
`[(Included 0, 'B'), (Included 10, 'A')]`}, `insert(2..5, 'C')` removes
nothing; with `end_val` as the claim states (`peek_prev`'s value `'B'`) a
boundary `(Included 5, 'B')` would be re-created, but the code re-creates
none. -/
theorem insert_removal_phase_divergence :
    ((RangeMap.new 'A' : RangeMap Int Char).insert
        (Bound.Excluded 10) Bound.Unbounded 'B')
      = RangeMap.mk 'A' [(Point.Excluded 10, 'B')] ∧
    (((RangeMap.new 'A' : RangeMap Int Char).insert
        (Bound.Excluded 10) Bound.Unbounded 'B').insert
        Bound.Unbounded (Bound.Excluded 10) 'C')
      = RangeMap.mk 'C' [(Point.Included 10, 'B')] ∧
    Point.ble (Point.Excluded (10 : Int)) ((Point.Excluded (10 : Int)).swap_bound)
      = false ∧
    (RangeMap.mk 'A' [(Point.Excluded (10 : Int), 'B')] : RangeMap Int Char).index 10
      = 'A' ∧
    (RangeMap.mk 'C' [(Point.Included (10 : Int), 'B')] : RangeMap Int Char).index 10
      = 'B' ∧
    ((RangeMap.mk 'A' [(Point.Included (0 : Int), 'B'), (Point.Included 10, 'A')] :
        RangeMap Int Char).insert (Bound.Included 2) (Bound.Excluded 5) 'C')
      = RangeMap.mk 'A' [(Point.Included 0, 'B'), (Point.Included 2, 'C'),
          (Point.Included 10, 'A')] := by
  refine ⟨by decide, by decide, by decide, by decide, by decide, by decide⟩

end RngMap
